import Mathlib

/-!
Verification of the scheduling core of planner_ai_completed.py.

Shallow embedding conventions:
* A Python `datetime` is a rational number of hours since an epoch; day 0 of
  the epoch is a Monday, so `date.weekday()` is the day index modulo 7.
* A Python `date` is the integer day index, i.e. the floor of hours / 24.
* Python floats are modelled as rationals; the 1e-6 tolerance of
  `distribute_hours` is the exact rational 1/1000000.
* Python dicts keyed by task name are modelled as functions `String → _`
  (plus the explicit insertion-ordered key list `keys` where iteration order
  matters); `dict.get(k, default)` becomes `Option.getD`.
* The unbounded `while` loops are given explicit fuel that provably bounds
  their iteration count (see the comments at `distGo` and `kahnLoop`).
-/

namespace Planner

/-- Numeric tolerance `1e-6` used by `distribute_hours`. -/
def tol : ℚ := 1 / 1000000

/-- Python `dt.date()`: the calendar day index of a date-time counted in hours. -/
def dateOf (dt : ℚ) : ℤ := ⌊dt / 24⌋

/-- Python `date.weekday()`: 0 = Monday … 6 = Sunday (epoch day 0 is a Monday). -/
def weekday (d : ℤ) : ℤ := d % 7

/-- The test `cur.weekday() < 5` from the source. -/
def isWeekday (d : ℤ) : Bool := decide (weekday d < 5)

/-- A normalized task record as produced by `parse_tasks_json`. -/
structure Task where
  name : String
  why : String
  hours : ℚ
  depends_on : List String
deriving DecidableEq, Repr

/-- Insert a key into a Python-dict key list (no-op when already present). -/
def insKey (ks : List String) (n : String) : List String :=
  if n ∈ ks then ks else ks ++ [n]

/-- The keys of the dicts `name_to_task` / `indeg` built in `topological_sort`:
the task names in first-occurrence order. -/
def keys (tasks : List Task) : List String :=
  tasks.foldl (fun ks t => insKey ks t.name) []

/-- Final value of the `indeg` dict built at the top of `topological_sort`:
for each task record named `n` (duplicates accumulate), one unit per entry of
its `depends_on` that is itself a key (`if dep in indeg`). -/
def initIndeg (tasks : List Task) (n : String) : ℤ :=
  ((tasks.filter (fun t => decide (t.name = n))).map
    (fun t => ((t.depends_on.countP (fun d => decide (d ∈ keys tasks))) : ℤ))).sum

/-- The dict `name_to_task`: later duplicates overwrite earlier ones, hence the
lookup finds the last record with the given name. -/
def name_to_task (tasks : List Task) (n : String) : Option Task :=
  tasks.reverse.find? (fun t => decide (t.name = n))

/-- One update of the `indeg` map. -/
def upd (f : String → ℤ) (n : String) (v : ℤ) : String → ℤ :=
  fun m => if m = n then v else f m

/-- The inner `for t in tasks` loop of `topological_sort` run after popping `n`:
decrement `indeg[t.name]` for every record listing `n`, recording (in order)
the names whose in-degree just reached zero (they are appended to the queue). -/
def kahnStep (n : String) : List Task → (String → ℤ) → ((String → ℤ) × List String)
  | [], f => (f, [])
  | t :: ts, f =>
    if n ∈ t.depends_on then
      let f1 := upd f t.name (f t.name - 1)
      let r := kahnStep n ts f1
      if f1 t.name = 0 then (r.1, t.name :: r.2) else r
    else kahnStep n ts f

/-- The `while q` loop of `topological_sort`.  Each iteration pops one queue
entry, so the iteration count is the total number of names ever enqueued; a
name is enqueued at most once (initially iff its in-degree is 0, later only at
the unique moment its strictly decreasing in-degree hits 0), hence at most
`(keys tasks).length ≤ tasks.length` iterations ever happen and fuel
`tasks.length + 1` makes the model agree with the unbounded Python loop
(`kahnLoop_fuel_sufficient` below proves the fuel is never exhausted). -/
def kahnLoop (tasks : List Task) : ℕ → List String → (String → ℤ) → List Task → List Task
  | 0, _, _, order => order
  | _ + 1, [], _, order => order
  | fuel + 1, n :: q1, f, order =>
    let r := kahnStep n tasks f
    kahnLoop tasks fuel (q1 ++ r.2) r.1 (order ++ (name_to_task tasks n).toList)

/-- The list `order` computed by `topological_sort` before the cycle check. -/
def kahnOrder (tasks : List Task) : List Task :=
  kahnLoop tasks (tasks.length + 1)
    ((keys tasks).filter (fun n => decide (initIndeg tasks n = 0)))
    (initIndeg tasks) []

/-- `topological_sort`: Kahn order, or the original list when a cycle (or any
other reason) keeps the ordered count below the task count. -/
def topological_sort (tasks : List Task) : List Task :=
  if (kahnOrder tasks).length = tasks.length then kahnOrder tasks else tasks

/-- The `while remaining > 1e-6 and cur.date() <= end.date()` loop of
`distribute_hours`.  The cursor advances one day per iteration, so the loop
runs at most `end.date() - start.date() + 1` times; that count is passed as
fuel (when the fuel runs out the date guard fails as well, so the model and
the Python loop stop together). -/
def distGo (per_day : ℚ) (endDay : ℤ) : ℕ → ℚ → ℚ → List (ℤ × ℚ)
  | 0, _, _ => []
  | fuel + 1, remaining, cur =>
    if tol < remaining ∧ dateOf cur ≤ endDay then
      if isWeekday (dateOf cur) then
        (dateOf cur, min per_day remaining) ::
          distGo per_day endDay fuel (remaining - min per_day remaining) (cur + 24)
      else distGo per_day endDay fuel remaining (cur + 24)
    else []

/-- `distribute_hours(total_hours, start, end, hours_per_week)`: the list of
(date, hours) pairs the Python generator yields. -/
def distribute_hours (total_hours : ℚ) (start endDT : ℚ) (hours_per_week : ℚ) :
    List (ℤ × ℚ) :=
  distGo (max (hours_per_week / 5) (1 / 2)) (dateOf endDT)
    ((dateOf endDT + 1 - dateOf start).toNat) total_hours start

/-- Number of weekdays among the `n` consecutive days starting at day `a`. -/
def weekdaysIn (a : ℤ) : ℕ → ℕ
  | 0 => 0
  | n + 1 => (if isWeekday a then 1 else 0) + weekdaysIn (a + 1) n

/-- Sum of the hours components of an allocation list. -/
def sumH (l : List (ℤ × ℚ)) : ℚ := (l.map Prod.snd).sum

/-- A calendar event dict as built by `schedule_tasks` / consumed by
`write_ics`.  The Python field `end` is called `stop` here (`end` is a Lean
keyword); `uid` is the optional `"uid"` dict entry (never set by
`schedule_tasks`). -/
structure Event where
  start : ℚ
  stop : ℚ
  summary : String
  description : String
  uid : Option String
deriving DecidableEq, Repr

/-- A CSV row `[name, hours, first_day, last_day, why]`; the numeric and date
formatting of the Python strings is kept as the underlying values. -/
structure Row where
  name : String
  hours : ℚ
  firstDay : ℤ
  lastDay : ℤ
  notes : String
deriving DecidableEq, Repr

/-- Stand-in for Python's `f"{h:.1f}"` rendering; no claim depends on the
rendered digits, only on which event/summary a value is embedded in. -/
def fmt1 (q : ℚ) : String := toString q

/-- The event built for one (date, hours) allocation of task `t`:
10:00 to 10:00 + h on the allocation day. -/
def mkEvent (t : Task) (b : ℤ × ℚ) : Event :=
  { start := 24 * (b.1 : ℚ) + 10
  , stop := 24 * (b.1 : ℚ) + 10 + b.2
  , summary := "[" ++ fmt1 b.2 ++ "h] " ++ t.name
  , description := if t.why = "" then "Task" else t.why
  , uid := none }

/-- `max([finished_dates.get(dep, start) for dep in deps] or [start])`. -/
def depEnd (planStart : ℚ) (fd : String → Option ℚ) (deps : List String) : ℚ :=
  match deps.map (fun d => (fd d).getD planStart) with
  | [] => planStart
  | v :: vs => vs.foldl max v

/-- State threaded through the `for t in topological_sort(tasks)` loop of
`schedule_tasks`: accumulated events and rows, the `finished_dates` dict and
the running cursor `cur_start`. -/
structure SchedState where
  events : List Event
  rows : List Row
  fd : String → Option ℚ
  cur : ℚ

/-- The allocation list the loop body uses for task `t`: the day-bucket
allocations from the task's earliest start
`max(cur_start, max(finished_dates.get(dep, start) for dep))`, or the forced
single full-hours block on the due date when that list is empty
(`if not blocks`). -/
def taskBlocks (planStart dueDT : ℚ) (hpw : ℚ) (st : SchedState) (t : Task) :
    List (ℤ × ℚ) :=
  let blocks0 :=
    distribute_hours t.hours (max st.cur (depEnd planStart st.fd t.depends_on)) dueDT hpw
  if blocks0 = [] then [(dateOf dueDT, t.hours)] else blocks0

/-- One iteration of the scheduling loop for task `t`: emit one event per
allocation, record the CSV row, set `finished_dates[t.name]` to 18:00 of the
last allocation day and advance the cursor there. -/
def scheduleStep (planStart dueDT : ℚ) (hpw : ℚ) (st : SchedState) (t : Task) :
    SchedState :=
  let blocks := taskBlocks planStart dueDT hpw st t
  let firstDay := (blocks.headD (0, 0)).1
  let lastDay := (blocks.getLastD (0, 0)).1
  let fin := 24 * (lastDay : ℚ) + 18
  { events := st.events ++ blocks.map (mkEvent t)
  , rows := st.rows ++
      [{ name := t.name, hours := t.hours, firstDay := firstDay
       , lastDay := lastDay, notes := t.why }]
  , fd := fun m => if m = t.name then some fin else st.fd m
  , cur := fin }

/-- Initial scheduling state (`events=[]`, `csv_rows=[]`, `finished_dates={}`,
`cur_start = start`). -/
def schedStart (planStart : ℚ) : SchedState :=
  { events := [], rows := [], fd := fun _ => none, cur := planStart }

/-- `schedule_tasks(tasks, start, due, hours_per_week)` returning
`(events, csv_rows)`.  The locals `span_days` and `total_hours` of the Python
function are computed but never used, so they are not modelled. -/
def schedule_tasks (tasks : List Task) (start due : ℚ) (hpw : ℚ) :
    List Event × List Row :=
  let st := (topological_sort tasks).foldl (scheduleStep start due hpw) (schedStart start)
  (st.events, st.rows)

/-- The scheduling state after the first `i` tasks of the dependency order
have been processed. -/
def schedAfter (tasks : List Task) (start due hpw : ℚ) (i : ℕ) : SchedState :=
  ((topological_sort tasks).take i).foldl (scheduleStep start due hpw) (schedStart start)

/-- The events contributed by the `i`-th task of the dependency order. -/
def eventsOfTask (tasks : List Task) (start due hpw : ℚ) (i : ℕ) : List Event :=
  (schedAfter tasks start due hpw (i + 1)).events.drop
    (schedAfter tasks start due hpw i).events.length

/-- Stand-in for `dt.strftime("%Y%m%dT%H%M%S")`; no claim depends on the
rendered digits, only on which timestamp value each line embeds. -/
def dtstamp (dt : ℚ) : String := toString dt

/-- The fixed calendar header written before the event blocks. -/
def icsHeader (cal_name : String) : List String :=
  ["BEGIN:VCALENDAR", "VERSION:2.0", "PRODID:-//Planner.AI//EN",
   "X-WR-CALNAME:" ++ cal_name]

/-- The eight lines appended for one event; `now` is the single `utcnow()`
value taken before the loop. -/
def eventBlock (now : ℚ) (uid : String) (ev : Event) : List String :=
  ["BEGIN:VEVENT",
   "UID:" ++ uid,
   "DTSTAMP:" ++ dtstamp now ++ "Z",
   "DTSTART:" ++ dtstamp ev.start,
   "DTEND:" ++ dtstamp ev.stop,
   "SUMMARY:" ++ ev.summary,
   "DESCRIPTION:" ++ ev.description.replace "\n" " ",
   "END:VEVENT"]

/-- The `for ev in events` loop of `write_ics`; `uids i` models the fresh
`uuid4()` drawn for the `i`-th event when its dict has no `"uid"` entry. -/
def icsGo (now : ℚ) (uids : ℕ → String) : List Event → ℕ → List String
  | [], _ => []
  | ev :: evs, i => eventBlock now (ev.uid.getD (uids i)) ev ++ icsGo now uids evs (i + 1)

/-- `write_ics(events, path, cal_name)`: the list of lines of the document
(the file write itself is I/O and out of scope).  `now` is the one
`datetime.utcnow()` call, `uids` the stream of generated identifiers. -/
def write_ics (events : List Event) (cal_name : String) (now : ℚ) (uids : ℕ → String) :
    List String :=
  icsHeader cal_name ++ icsGo now uids events 0 ++ ["END:VCALENDAR"]

/-- The `depends_on` list of the record the graph resolves a name to. -/
def depsOfName (tasks : List Task) (m : String) : List String :=
  match name_to_task tasks m with
  | some t => t.depends_on
  | none => []

/-- Number of resolvable dependencies of the task named `m` not yet in `P`. -/
def resCount (tasks : List Task) (m : String) (P : List String) : ℤ :=
  ((((depsOfName tasks m).filter (fun d => decide (d ∈ keys tasks))).filter
    (fun d => decide (d ∉ P))).length : ℤ)

/-- Queue/in-degree invariant of the Kahn loop: `E` is the list of names ever
enqueued (popped ones first); it is duplicate-free, consists of keys, and a
key has been enqueued exactly when its current in-degree is nonpositive. -/
def InvE (tasks : List Task) (E : List String) (f : String → ℤ) : Prop :=
  E.Nodup ∧ (∀ m ∈ E, m ∈ keys tasks) ∧
    ∀ m ∈ keys tasks, (m ∈ E ↔ f m ≤ 0)

/-- Full invariant for the correctness proof (for inputs with duplicate-free
names and duplicate-free dependency lists): on top of `InvE` for `P ++ q`,
the in-degree of an unpopped key counts its unpopped resolvable dependencies,
and every popped name was popped after all its resolvable dependencies. -/
def InvD (tasks : List Task) (P q : List String) (f : String → ℤ) : Prop :=
  InvE tasks (P ++ q) f ∧
  (∀ m ∈ keys tasks, m ∉ P → f m = resCount tasks m P) ∧
  ∀ (k : ℕ) (hk : k < P.length) (d : String),
    d ∈ depsOfName tasks (P.get ⟨k, hk⟩) → d ∈ keys tasks → d ∈ P.take k

end Planner

namespace Planner

lemma tol_pos : 0 < tol := by norm_num [tol]

lemma dateOf_add_24 (x : ℚ) : dateOf (x + 24) = dateOf x + 1 := by
  unfold dateOf
  rw [show (x + 24) / 24 = x / 24 + 1 by ring]
  exact Int.floor_add_one _

lemma dateOf_mono {a b : ℚ} (h : a ≤ b) : dateOf a ≤ dateOf b :=
  Int.floor_le_floor (by gcongr)

lemma dateOf_day_add (D : ℤ) (r : ℚ) (h0 : 0 ≤ r) (h24 : r < 24) :
    dateOf (24 * (D : ℚ) + r) = D := by
  unfold dateOf
  rw [show (24 * (D : ℚ) + r) / 24 = (D : ℚ) + r / 24 by ring, Int.floor_int_add,
    Int.floor_eq_zero_iff.mpr ⟨by positivity, by rw [div_lt_one (by norm_num)]; linarith⟩,
    add_zero]

lemma distGo_not_rem (per : ℚ) (e : ℤ) (fuel : ℕ) (rem cur : ℚ) (h : ¬ tol < rem) :
    distGo per e fuel rem cur = [] := by
  cases fuel with
  | zero => rfl
  | succ n => rw [distGo, if_neg (fun hc => h hc.1)]

lemma distGo_length (per : ℚ) (e : ℤ) :
    ∀ (fuel : ℕ) (rem cur : ℚ), (distGo per e fuel rem cur).length ≤ fuel := by
  intro fuel
  induction fuel with
  | zero => intro rem cur; simp [distGo]
  | succ n ih =>
    intro rem cur
    rw [distGo]
    split_ifs with hc hw
    · simpa using Nat.succ_le_succ (ih _ _)
    · exact le_trans (ih _ _) (Nat.le_succ n)
    · simp

lemma distGo_mem {per : ℚ} (hper : tol < per) (e : ℤ) :
    ∀ (fuel : ℕ) (rem cur : ℚ) (d : ℤ) (h : ℚ),
      (d, h) ∈ distGo per e fuel rem cur →
      isWeekday d = true ∧ h ≤ per ∧ tol < h ∧ dateOf cur ≤ d ∧ d ≤ e := by
  intro fuel
  induction fuel with
  | zero => intro rem cur d h hmem; simp [distGo] at hmem
  | succ n ih =>
    intro rem cur d h hmem
    rw [distGo] at hmem
    split_ifs at hmem with hc hw
    · rcases List.mem_cons.mp hmem with heq | htail
      · rcases Prod.mk.injEq _ _ _ _ ▸ heq with ⟨hd, hh⟩
        subst hd; subst hh
        exact ⟨hw, min_le_left _ _, lt_min hper hc.1, le_refl _, hc.2⟩
      · have hrec := ih _ _ _ _ htail
        refine ⟨hrec.1, hrec.2.1, hrec.2.2.1, ?_, hrec.2.2.2.2⟩
        have : dateOf cur ≤ dateOf (cur + 24) := by rw [dateOf_add_24]; omega
        exact le_trans this hrec.2.2.2.1
    · have hrec := ih _ _ _ _ hmem
      refine ⟨hrec.1, hrec.2.1, hrec.2.2.1, ?_, hrec.2.2.2.2⟩
      have : dateOf cur ≤ dateOf (cur + 24) := by rw [dateOf_add_24]; omega
      exact le_trans this hrec.2.2.2.1
    · simp at hmem

lemma sumH_nil : sumH ([] : List (ℤ × ℚ)) = 0 := rfl

lemma sumH_cons (b : ℤ × ℚ) (l : List (ℤ × ℚ)) : sumH (b :: l) = b.2 + sumH l := by
  simp [sumH]

lemma distGo_sum_le (per : ℚ) (e : ℤ) :
    ∀ (fuel : ℕ) (rem cur : ℚ), 0 ≤ rem → sumH (distGo per e fuel rem cur) ≤ rem := by
  intro fuel
  induction fuel with
  | zero => intro rem cur h; simpa [distGo, sumH] using h
  | succ n ih =>
    intro rem cur h
    rw [distGo]
    split_ifs with hc hw
    · rw [sumH_cons]
      have hrec := ih (rem - min per rem) (cur + 24)
        (by simp only [sub_nonneg]; exact min_le_right _ _)
      simp only at hrec
      linarith
    · exact ih _ _ h
    · simpa [sumH] using h

end Planner

namespace Planner

lemma distGo_sum_complete (per : ℚ) (e : ℤ) :
    ∀ (fuel : ℕ) (rem cur : ℚ), dateOf cur + fuel ≤ e + 1 →
      rem ≤ (weekdaysIn (dateOf cur) fuel : ℚ) * per →
      rem - sumH (distGo per e fuel rem cur) ≤ tol := by
  intro fuel
  induction fuel with
  | zero =>
    intro rem cur _ hW
    simp only [weekdaysIn, Nat.cast_zero, zero_mul] at hW
    simp only [distGo, sumH_nil]
    linarith [tol_pos]
  | succ n ih =>
    intro rem cur hcut hW
    by_cases hrem : tol < rem
    · have hday : dateOf cur ≤ e := by push_cast at hcut; omega
      rw [distGo, if_pos ⟨hrem, hday⟩]
      by_cases hw : isWeekday (dateOf cur) = true
      · rw [if_pos hw, sumH_cons]
        simp only [weekdaysIn, hw, if_true, Nat.cast_add, Nat.cast_one] at hW
        rcases le_or_lt per rem with hle | hlt
        · have hmin : min per rem = per := min_eq_left hle
          have hrec := ih (rem - per) (cur + 24)
            (by rw [dateOf_add_24]; push_cast at hcut ⊢; omega)
            (by rw [dateOf_add_24]; nlinarith)
          rw [hmin]
          simp only at hrec
          linarith
        · have hmin : min per rem = rem := min_eq_right hlt.le
          rw [hmin, distGo_not_rem _ _ _ _ _ (by simp; linarith [tol_pos]), sumH_nil]
          linarith [tol_pos]
      · rw [if_neg hw]
        apply ih rem (cur + 24) (by rw [dateOf_add_24]; push_cast at hcut ⊢; omega)
        simp only [weekdaysIn, hw, if_false, Nat.cast_add, Nat.cast_zero, zero_add] at hW
        rw [dateOf_add_24]
        simpa using hW
    · rw [distGo_not_rem _ _ _ _ _ hrem, sumH_nil]
      linarith [not_lt.mp hrem]

lemma distGo_empty_iff (per : ℚ) (e : ℤ) :
    ∀ (fuel : ℕ) (rem cur : ℚ), dateOf cur + fuel = e + 1 →
      (distGo per e fuel rem cur = [] ↔ weekdaysIn (dateOf cur) fuel = 0 ∨ rem ≤ tol) := by
  intro fuel
  induction fuel with
  | zero => intro rem cur _; simp [distGo, weekdaysIn]
  | succ n ih =>
    intro rem cur hcut
    have hday : dateOf cur ≤ e := by push_cast at hcut; omega
    by_cases hrem : tol < rem
    · rw [distGo, if_pos ⟨hrem, hday⟩]
      by_cases hw : isWeekday (dateOf cur) = true
      · rw [if_pos hw]
        simp only [weekdaysIn, hw, if_true]
        constructor
        · intro hcon; exact absurd hcon (List.cons_ne_nil _ _)
        · rintro (h1 | h2)
          · omega
          · exact absurd h2 (not_le.mpr hrem)
      · rw [if_neg hw, ih rem (cur + 24) (by rw [dateOf_add_24]; push_cast at hcut ⊢; omega)]
        simp [weekdaysIn, hw, dateOf_add_24]
    · rw [distGo_not_rem _ _ _ _ _ hrem]
      simp [not_lt.mp hrem]

end Planner

namespace Planner

lemma dateOf_zero : dateOf 0 = 0 := by norm_num [dateOf]

lemma dateOf_mul24 (D : ℤ) : dateOf (24 * (D : ℚ)) = D := by
  simpa using dateOf_day_add D 0 le_rfl (by norm_num)

lemma ev_max10 : max ((10 : ℚ) / 5) (1 / 2) = 2 := by
  rw [max_eq_left (by norm_num)]; norm_num

lemma ev_dist5 : distribute_hours 5 0 0 10 = [((0 : ℤ), (2 : ℚ))] := by
  simp only [distribute_hours, ev_max10, dateOf_zero]
  norm_num
  rw [distGo, if_pos ⟨by norm_num [tol], by rw [dateOf_zero]⟩,
    if_pos (by rw [dateOf_zero]; decide)]
  rw [dateOf_zero]
  norm_num
  rw [distGo]

/-- C5: every (date, hours) pair yielded by `distribute_hours` falls on a
weekday (ordinal weekday 0-4, never Saturday or Sunday) and its hours never
exceed `max(weekly_hours/5, 0.5)`. -/
theorem distribute_hours_weekday_cap (total start due hpw : ℚ) (d : ℤ) (h : ℚ)
    (hmem : (d, h) ∈ distribute_hours total start due hpw) :
    0 ≤ weekday d ∧ weekday d < 5 ∧ h ≤ max (hpw / 5) (1 / 2) := by
  have hper : tol < max (hpw / 5) (1 / 2) :=
    lt_of_lt_of_le (by norm_num [tol]) (le_max_right _ _)
  simp only [distribute_hours] at hmem
  have hm := distGo_mem hper _ _ _ _ _ _ hmem
  refine ⟨Int.emod_nonneg d (by norm_num), ?_, hm.2.1⟩
  have hw := hm.1
  simpa [isWeekday] using hw

/-- Witness for C5 at a concrete input. -/
theorem distribute_hours_weekday_cap_w :
    (((0 : ℤ), (2 : ℚ)) ∈ distribute_hours 5 0 0 10) ∧
      (0 ≤ weekday 0 ∧ weekday 0 < 5 ∧ (2 : ℚ) ≤ max ((10 : ℚ) / 5) (1 / 2)) :=
  ⟨by rw [ev_dist5]; exact List.mem_singleton_self _,
    distribute_hours_weekday_cap 5 0 0 10 0 2
      (by rw [ev_dist5]; exact List.mem_singleton_self _)⟩

/-- C10: `distribute_hours` always yields a finite sequence, of length at most
the number of days in the start-to-due window, and the sequence is empty when
the total is at most the tolerance (in particular when it is zero or
negative) or when the start date is past the due date. -/
theorem distribute_hours_finite (total start due hpw : ℚ) :
    (distribute_hours total start due hpw).length ≤ (dateOf due + 1 - dateOf start).toNat ∧
    (total ≤ tol → distribute_hours total start due hpw = []) ∧
    (dateOf due < dateOf start → distribute_hours total start due hpw = []) := by
  refine ⟨distGo_length _ _ _ _ _, ?_, ?_⟩
  · intro ht
    exact distGo_not_rem _ _ _ _ _ (not_lt.mpr ht)
  · intro hd
    have h0 : (dateOf due + 1 - dateOf start).toNat = 0 := by omega
    simp only [distribute_hours, h0, distGo]

/-- Witness for C10 at a concrete input. -/
theorem distribute_hours_finite_w :
    (0 : ℚ) ≤ tol ∧ distribute_hours 0 0 0 8 = [] :=
  ⟨by norm_num [tol], (distribute_hours_finite 0 0 0 8).2.1 (by norm_num [tol])⟩

/-- C3 (amended): for positive `total_hours` the yielded hours sum to at most
`total_hours`; the sum reaches `total_hours` within the 1e-6 tolerance
whenever the weekday capacity of the window covers the total; and the
sequence is empty exactly when the window has no weekday or the total is at
most the tolerance.  (As stated, the claim fails: when the window is too
small, the loop is cut off at the due date with a nonempty sequence summing
to less than `total_hours`; and a positive total at most 1e-6 yields an empty
sequence even on a weekday window — see the counterexample.) -/
theorem distribute_hours_sum (total start due hpw : ℚ) (htot : 0 < total) :
    sumH (distribute_hours total start due hpw) ≤ total ∧
    (total ≤ (weekdaysIn (dateOf start) ((dateOf due + 1 - dateOf start).toNat) : ℚ) *
        max (hpw / 5) (1 / 2) →
      total - sumH (distribute_hours total start due hpw) ≤ tol) ∧
    (distribute_hours total start due hpw = [] ↔
      weekdaysIn (dateOf start) ((dateOf due + 1 - dateOf start).toNat) = 0 ∨
        total ≤ tol) := by
  simp only [distribute_hours]
  refine ⟨distGo_sum_le _ _ _ _ _ htot.le, ?_, ?_⟩
  · intro hW
    by_cases hse : dateOf start ≤ dateOf due + 1
    · exact distGo_sum_complete _ (dateOf due) _ total start
        (by rw [Int.toNat_of_nonneg (by omega)]; omega) hW
    · exfalso
      have h0 : (dateOf due + 1 - dateOf start).toNat = 0 := by omega
      rw [h0] at hW
      simp only [weekdaysIn, Nat.cast_zero, zero_mul] at hW
      linarith
  · by_cases hse : dateOf start ≤ dateOf due + 1
    · exact distGo_empty_iff _ (dateOf due) _ total start
        (by rw [Int.toNat_of_nonneg (by omega)]; ring)
    · have h0 : (dateOf due + 1 - dateOf start).toNat = 0 := by omega
      rw [h0]
      simp [distGo, weekdaysIn]

/-- Counterexample for C3 as stated: with `total_hours = 5`, a one-day window
(Monday start and due) and a 10-hour week (daily cap 2), the yielded sequence
is the nonempty `[(Monday, 2)]` whose sum 2 is not within 1e-6 of 5; and with
the positive total `1e-6` and the same one-weekday window the sequence is
empty although the window contains a weekday. -/
theorem distribute_hours_sum_cx :
    ((0 : ℚ) < 5 ∧ distribute_hours 5 0 0 10 = [((0 : ℤ), (2 : ℚ))] ∧
      ¬(|5 - sumH (distribute_hours 5 0 0 10)| ≤ tol ∨ distribute_hours 5 0 0 10 = [])) ∧
    ((0 : ℚ) < tol ∧ distribute_hours tol 0 0 10 = [] ∧
      weekdaysIn (dateOf (0 : ℚ)) ((dateOf (0 : ℚ) + 1 - dateOf (0 : ℚ)).toNat) ≠ 0) := by
  refine ⟨⟨by norm_num, ev_dist5, ?_⟩, ⟨by norm_num [tol], ?_, ?_⟩⟩
  · rw [ev_dist5]
    push_neg
    constructor
    · rw [show sumH [((0 : ℤ), (2 : ℚ))] = 2 by simp [sumH]]
      rw [show |(5 : ℚ) - 2| = 3 by norm_num]
      norm_num [tol]
    · simp
  · exact distGo_not_rem _ _ _ _ _ (lt_irrefl tol)
  · rw [dateOf_zero]
    decide

/-- Witness for C3 (amended) at a concrete input. -/
theorem distribute_hours_sum_w :
    (2 : ℚ) - sumH (distribute_hours 2 0 (24 * 4) 10) ≤ tol :=
  (distribute_hours_sum 2 0 (24 * 4) 10 (by norm_num)).2.1
    (by rw [show dateOf (24 * 4 : ℚ) = 4 from by simpa using dateOf_mul24 4, dateOf_zero]
        rw [show ((4 : ℤ) + 1 - 0).toNat = 5 by rfl]
        rw [show weekdaysIn 0 5 = 5 by decide, ev_max10]
        norm_num)

end Planner

namespace Planner

lemma headD_mem {α : Type} (l : List α) (d : α) (h : l ≠ []) : l.headD d ∈ l := by
  cases l with
  | nil => exact absurd rfl h
  | cons a l => exact List.mem_cons_self a l

lemma getLastD_mem {α : Type} (l : List α) (d : α) (h : l ≠ []) : l.getLastD d ∈ l := by
  rw [List.getLastD_eq_getLast?, List.getLast?_eq_getLast l h, Option.getD_some]
  exact List.getLast_mem h

lemma foldl_max_le (vs : List ℚ) : ∀ (v x : ℚ), x ∈ v :: vs → x ≤ vs.foldl max v := by
  induction vs with
  | nil =>
    intro v x hx
    rw [List.mem_singleton] at hx
    exact hx.le
  | cons w ws ih =>
    intro v x hx
    rcases List.mem_cons.mp hx with h1 | h2
    · subst h1
      exact le_trans (le_max_left x w) (ih (max x w) _ (List.mem_cons_self _ _))
    · rcases List.mem_cons.mp h2 with h3 | h4
      · subst h3
        exact le_trans (le_max_right v x) (ih (max v x) _ (List.mem_cons_self _ _))
      · exact ih (max v w) x (List.mem_cons_of_mem _ h4)

lemma depEnd_ge (ps : ℚ) (fd : String → Option ℚ) (deps : List String) (d : String)
    (hd : d ∈ deps) : (fd d).getD ps ≤ depEnd ps fd deps := by
  unfold depEnd
  cases deps with
  | nil => exact absurd hd (List.not_mem_nil d)
  | cons e es =>
    simp only [List.map_cons]
    exact foldl_max_le _ _ _ (List.mem_map_of_mem (fun d => (fd d).getD ps) hd)

lemma taskBlocks_ne_nil (ps due hpw : ℚ) (st : SchedState) (t : Task) :
    taskBlocks ps due hpw st t ≠ [] := by
  simp only [taskBlocks]
  split_ifs with h
  · exact List.cons_ne_nil _ _
  · exact h

lemma taskBlocks_le_due (ps due hpw : ℚ) (st : SchedState) (t : Task) (b : ℤ × ℚ)
    (hb : b ∈ taskBlocks ps due hpw st t) : b.1 ≤ dateOf due := by
  simp only [taskBlocks] at hb
  split_ifs at hb with h
  · rw [List.mem_singleton] at hb
    rw [hb]
  · simp only [distribute_hours] at hb
    have hper : tol < max (hpw / 5) (1 / 2) :=
      lt_of_lt_of_le (by norm_num [tol]) (le_max_right _ _)
    exact (distGo_mem hper _ _ _ _ b.1 b.2 (by simpa using hb)).2.2.2.2

lemma taskBlocks_pos (ps due hpw : ℚ) (st : SchedState) (t : Task) (ht : 0 < t.hours)
    (b : ℤ × ℚ) (hb : b ∈ taskBlocks ps due hpw st t) : 0 < b.2 := by
  simp only [taskBlocks] at hb
  split_ifs at hb with h
  · rw [List.mem_singleton] at hb
    rw [hb]
    exact ht
  · simp only [distribute_hours] at hb
    have hper : tol < max (hpw / 5) (1 / 2) :=
      lt_of_lt_of_le (by norm_num [tol]) (le_max_right _ _)
    exact lt_trans tol_pos (distGo_mem hper _ _ _ _ b.1 b.2 (by simpa using hb)).2.2.1

lemma scheduleStep_events (ps due hpw : ℚ) (st : SchedState) (t : Task) :
    (scheduleStep ps due hpw st t).events =
      st.events ++ (taskBlocks ps due hpw st t).map (mkEvent t) := rfl

lemma scheduleStep_rows (ps due hpw : ℚ) (st : SchedState) (t : Task) :
    (scheduleStep ps due hpw st t).rows =
      st.rows ++
        [{ name := t.name, hours := t.hours
         , firstDay := ((taskBlocks ps due hpw st t).headD (0, 0)).1
         , lastDay := ((taskBlocks ps due hpw st t).getLastD (0, 0)).1
         , notes := t.why }] := rfl

lemma scheduleStep_fd (ps due hpw : ℚ) (st : SchedState) (t : Task) :
    (scheduleStep ps due hpw st t).fd = fun m =>
      if m = t.name then
        some (24 * ((((taskBlocks ps due hpw st t).getLastD (0, 0)).1 : ℤ) : ℚ) + 18)
      else st.fd m := rfl

lemma schedAfter_succ (tasks : List Task) (s due hpw : ℚ) (i : ℕ) :
    schedAfter tasks s due hpw (i + 1) =
      match (topological_sort tasks)[i]? with
      | some t => scheduleStep s due hpw (schedAfter tasks s due hpw i) t
      | none => schedAfter tasks s due hpw i := by
  unfold schedAfter
  rw [List.take_succ, List.foldl_append]
  cases h : (topological_sort tasks)[i]? with
  | none => rfl
  | some t => rfl

lemma schedAfter_fd_le (tasks : List Task) (s due hpw : ℚ) :
    ∀ (i : ℕ) (n : String) (v : ℚ), (schedAfter tasks s due hpw i).fd n = some v →
      v ≤ 24 * ((dateOf due : ℤ) : ℚ) + 18 := by
  intro i
  induction i with
  | zero =>
    intro n v h
    simp [schedAfter, schedStart] at h
  | succ i ih =>
    intro n v h
    rw [schedAfter_succ] at h
    cases hg : (topological_sort tasks)[i]? with
    | none => rw [hg] at h; exact ih n v h
    | some t =>
      rw [hg] at h
      simp only [scheduleStep_fd] at h
      by_cases hn : n = t.name
      · rw [if_pos hn, Option.some.injEq] at h
        have hlast : ((taskBlocks s due hpw (schedAfter tasks s due hpw i) t).getLastD (0, 0)).1
            ≤ dateOf due :=
          taskBlocks_le_due _ _ _ _ _ _
            (getLastD_mem _ _ (taskBlocks_ne_nil _ _ _ _ _))
        have hc : ((((taskBlocks s due hpw (schedAfter tasks s due hpw i) t).getLastD (0, 0)).1 : ℤ) : ℚ)
            ≤ ((dateOf due : ℤ) : ℚ) := by exact_mod_cast hlast
        subst h
        linarith
      · rw [if_neg hn] at h
        exact ih n v h

end Planner

namespace Planner

lemma name_to_task_mem {tasks : List Task} {n : String} {t : Task}
    (h : name_to_task tasks n = some t) : t ∈ tasks ∧ t.name = n := by
  unfold name_to_task at h
  refine ⟨List.mem_reverse.mp (List.mem_of_find?_eq_some h), ?_⟩
  have hp := List.find?_some (p := fun u : Task => decide (u.name = n)) h
  exact of_decide_eq_true hp

lemma kahnLoop_sub (tasks : List Task) :
    ∀ (fuel : ℕ) (q : List String) (f : String → ℤ) (order : List Task),
      (∀ x ∈ order, x ∈ tasks) → ∀ x ∈ kahnLoop tasks fuel q f order, x ∈ tasks := by
  intro fuel
  induction fuel with
  | zero => intro q f order h x hx; exact h x hx
  | succ m ih =>
    intro q f order h x hx
    cases q with
    | nil => exact h x hx
    | cons n q1 =>
      rw [kahnLoop] at hx
      refine ih _ _ _ ?_ x hx
      intro y hy
      rcases List.mem_append.mp hy with h1 | h2
      · exact h y h1
      · cases ho : name_to_task tasks n with
        | none => rw [ho] at h2; simp [Option.toList] at h2
        | some u =>
          rw [ho] at h2
          simp only [Option.toList, List.mem_singleton] at h2
          rw [h2]
          exact (name_to_task_mem ho).1

lemma topological_sort_subset (tasks : List Task) :
    ∀ x ∈ topological_sort tasks, x ∈ tasks := by
  unfold topological_sort
  split_ifs with h
  · exact kahnLoop_sub tasks _ _ _ _ (by intro x hx; simp at hx)
  · intro x hx; exact hx

lemma length_topological_sort (tasks : List Task) :
    (topological_sort tasks).length = tasks.length := by
  unfold topological_sort
  split_ifs with h
  · exact h
  · rfl

lemma sched_foldl_events (ps due hpw : ℚ) :
    ∀ (l : List Task) (st : SchedState),
      (∀ t ∈ l, 0 < t.hours) → (∀ ev ∈ st.events, ev.start < ev.stop) →
      ∀ ev ∈ (l.foldl (scheduleStep ps due hpw) st).events, ev.start < ev.stop := by
  intro l
  induction l with
  | nil => intro st _ hst ev hev; exact hst ev hev
  | cons t l ih =>
    intro st hl hst ev hev
    rw [List.foldl_cons] at hev
    refine ih _ (fun u hu => hl u (List.mem_cons_of_mem _ hu)) ?_ ev hev
    intro e he
    rw [scheduleStep_events] at he
    rcases List.mem_append.mp he with h1 | h2
    · exact hst e h1
    · obtain ⟨b, hb, hbe⟩ := List.mem_map.mp h2
      have hpos : 0 < b.2 :=
        taskBlocks_pos _ _ _ _ _ (hl t (List.mem_cons_self _ _)) b hb
      rw [← hbe]
      simp only [mkEvent]
      linarith

lemma sched_foldl_rows (ps due hpw : ℚ) :
    ∀ (l : List Task) (st : SchedState),
      ((l.foldl (scheduleStep ps due hpw) st).rows).map Row.name =
        st.rows.map Row.name ++ l.map Task.name := by
  intro l
  induction l with
  | nil => intro st; simp
  | cons t l ih =>
    intro st
    rw [List.foldl_cons, ih, scheduleStep_rows]
    simp

end Planner

namespace Planner

lemma scheduleStep_cur (ps due hpw : ℚ) (st : SchedState) (t : Task) :
    (scheduleStep ps due hpw st t).cur =
      24 * ((((taskBlocks ps due hpw st t).getLastD (0, 0)).1 : ℤ) : ℚ) + 18 := rfl

lemma depEnd_nil (ps : ℚ) (fd : String → Option ℚ) : depEnd ps fd [] = ps := rfl

lemma ev_dateOf18 : dateOf 18 = 0 := by norm_num [dateOf]

lemma ev_dateOf24 : dateOf 24 = 1 := by norm_num [dateOf]

lemma ev_max40 : max ((40 : ℚ) / 5) (1 / 2) = 8 := by
  rw [max_eq_left (by norm_num)]; norm_num

lemma ev_dist_oneday (total per hpw cur : ℚ) (hmax : max (hpw / 5) (1 / 2) = per)
    (htol : tol < total) (htot : total ≤ per) (hcur : dateOf cur = 0) :
    distribute_hours total cur 0 hpw = [((0 : ℤ), total)] := by
  simp only [distribute_hours, hmax, dateOf_zero, hcur]
  rw [show ((0 : ℤ) + 1 - 0).toNat = 1 from rfl]
  rw [distGo, if_pos ⟨htol, by rw [hcur]⟩, if_pos (by rw [hcur]; decide)]
  rw [hcur, min_eq_right htot]
  rw [show distGo per 0 0 (total - total) (cur + 24) = [] from rfl]

lemma ev_topo2 : topological_sort [⟨"a", "", 1, []⟩, ⟨"b", "", 1, ["a"]⟩] =
    [⟨"a", "", 1, []⟩, ⟨"b", "", 1, ["a"]⟩] := by decide

lemma ev_st1 : schedAfter [⟨"a", "", 1, []⟩, ⟨"b", "", 1, ["a"]⟩] 0 0 40 1 =
    scheduleStep 0 0 40 (schedStart 0) ⟨"a", "", 1, []⟩ := by
  rw [show (1 : ℕ) = 0 + 1 from rfl, schedAfter_succ, ev_topo2]
  rfl

lemma ev_blocks_a :
    taskBlocks 0 0 40 (schedStart 0) ⟨"a", "", 1, []⟩ = [((0 : ℤ), (1 : ℚ))] := by
  simp only [taskBlocks, depEnd_nil]
  rw [show (schedStart 0).cur = 0 from rfl, max_self]
  rw [ev_dist_oneday 1 8 40 0 ev_max40 (by norm_num [tol]) (by norm_num) dateOf_zero]
  rw [if_neg (List.cons_ne_nil _ _)]

lemma ev_fd1 : (schedAfter [⟨"a", "", 1, []⟩, ⟨"b", "", 1, ["a"]⟩] 0 0 40 1).fd "a" =
    some 18 := by
  rw [ev_st1, scheduleStep_fd]
  simp only [ev_blocks_a]
  norm_num

lemma ev_cur1 : (schedAfter [⟨"a", "", 1, []⟩, ⟨"b", "", 1, ["a"]⟩] 0 0 40 1).cur = 18 := by
  rw [ev_st1, scheduleStep_cur, ev_blocks_a]
  norm_num

lemma ev_depEnd_b :
    depEnd 0 (schedAfter [⟨"a", "", 1, []⟩, ⟨"b", "", 1, ["a"]⟩] 0 0 40 1).fd ["a"] = 18 := by
  simp [depEnd, ev_fd1]

lemma ev_blocks_b :
    taskBlocks 0 0 40 (schedAfter [⟨"a", "", 1, []⟩, ⟨"b", "", 1, ["a"]⟩] 0 0 40 1)
      ⟨"b", "", 1, ["a"]⟩ = [((0 : ℤ), (1 : ℚ))] := by
  simp only [taskBlocks, ev_depEnd_b, ev_cur1, max_self]
  rw [ev_dist_oneday 1 8 40 18 ev_max40 (by norm_num [tol]) (by norm_num) ev_dateOf18]
  rw [if_neg (List.cons_ne_nil _ _)]

lemma ev_st2 : schedAfter [⟨"a", "", 1, []⟩, ⟨"b", "", 1, ["a"]⟩] 0 0 40 2 =
    scheduleStep 0 0 40 (schedAfter [⟨"a", "", 1, []⟩, ⟨"b", "", 1, ["a"]⟩] 0 0 40 1)
      ⟨"b", "", 1, ["a"]⟩ := by
  rw [show (2 : ℕ) = 1 + 1 from rfl, schedAfter_succ, ev_topo2]
  rfl

lemma ev_events_b : eventsOfTask [⟨"a", "", 1, []⟩, ⟨"b", "", 1, ["a"]⟩] 0 0 40 1 =
    [mkEvent ⟨"b", "", 1, ["a"]⟩ ((0 : ℤ), (1 : ℚ))] := by
  unfold eventsOfTask
  rw [show (1 : ℕ) + 1 = 2 from rfl, ev_st2, scheduleStep_events, List.drop_left,
    ev_blocks_b]
  rfl

/-- C2 (amended): every calendar event of a scheduled task starts no earlier
than 10:00 on the completion date of each dependency scheduled before it
(completions sit at 18:00 of the last allocation day, events are anchored at
10:00, so the full-instant comparison of the original claim fails — see the
counterexample; dependencies that are unresolved or not yet scheduled impose
no bound, since the due-date fallback may precede the plan start). -/
theorem schedule_tasks_dep_start (tasks : List Task) (s due hpw : ℚ) (i : ℕ) (t : Task)
    (ht : (topological_sort tasks)[i]? = some t) (d : String) (hd : d ∈ t.depends_on)
    (v : ℚ) (hv : (schedAfter tasks s due hpw i).fd d = some v) :
    ∀ ev ∈ eventsOfTask tasks s due hpw i, 24 * ((dateOf v : ℤ) : ℚ) + 10 ≤ ev.start := by
  intro ev hev
  unfold eventsOfTask at hev
  rw [schedAfter_succ, ht, scheduleStep_events, List.drop_left] at hev
  obtain ⟨b, hb, hbe⟩ := List.mem_map.mp hev
  have hgoal : dateOf v ≤ b.1 → 24 * ((dateOf v : ℤ) : ℚ) + 10 ≤ ev.start := by
    intro hle
    rw [← hbe]
    simp only [mkEvent]
    have hc : ((dateOf v : ℤ) : ℚ) ≤ ((b.1 : ℤ) : ℚ) := by exact_mod_cast hle
    linarith
  apply hgoal
  simp only [taskBlocks] at hb
  split_ifs at hb with hemp
  · rw [List.mem_singleton] at hb
    have hvb := schedAfter_fd_le tasks s due hpw i d v hv
    rw [hb]
    have h2 : dateOf v ≤ dateOf (24 * ((dateOf due : ℤ) : ℚ) + 18) := dateOf_mono hvb
    rwa [dateOf_day_add (dateOf due) 18 (by norm_num) (by norm_num)] at h2
  · simp only [distribute_hours] at hb
    have hper : tol < max (hpw / 5) (1 / 2) :=
      lt_of_lt_of_le (by norm_num [tol]) (le_max_right _ _)
    have hm := distGo_mem hper _ _ _ _ b.1 b.2 (by simpa using hb)
    have h1 : v ≤ max (schedAfter tasks s due hpw i).cur
        (depEnd s (schedAfter tasks s due hpw i).fd t.depends_on) := by
      have hge := depEnd_ge s (schedAfter tasks s due hpw i).fd t.depends_on d hd
      rw [hv, Option.getD_some] at hge
      exact le_trans hge (le_max_right _ _)
    exact le_trans (dateOf_mono h1) hm.2.2.2.1

/-- Counterexample for C2 as stated: two tasks on a one-day plan (40-hour
week); the dependency `a` of task `b` completes at hour 18 (6 pm, day 0), yet
`b`'s only event starts at hour 10 (10 am, day 0), strictly before the
dependency's completion instant. -/
theorem schedule_tasks_dep_start_cx :
    (topological_sort [⟨"a", "", 1, []⟩, ⟨"b", "", 1, ["a"]⟩])[1]? =
        some ⟨"b", "", 1, ["a"]⟩ ∧
    "a" ∈ (Task.mk "b" "" 1 ["a"]).depends_on ∧
    (schedAfter [⟨"a", "", 1, []⟩, ⟨"b", "", 1, ["a"]⟩] 0 0 40 1).fd "a" = some 18 ∧
    ∃ ev ∈ eventsOfTask [⟨"a", "", 1, []⟩, ⟨"b", "", 1, ["a"]⟩] 0 0 40 1,
      ev.start < 18 := by
  refine ⟨by rw [ev_topo2]; rfl, by simp, ev_fd1, ?_⟩
  refine ⟨mkEvent ⟨"b", "", 1, ["a"]⟩ ((0 : ℤ), (1 : ℚ)), ?_, ?_⟩
  · rw [ev_events_b]
    exact List.mem_singleton_self _
  · simp only [mkEvent]
    norm_num

/-- Witness for C2 (amended) at a concrete input. -/
theorem schedule_tasks_dep_start_w :
    ((topological_sort [⟨"a", "", 1, []⟩, ⟨"b", "", 1, ["a"]⟩])[1]? =
        some ⟨"b", "", 1, ["a"]⟩ ∧
      (schedAfter [⟨"a", "", 1, []⟩, ⟨"b", "", 1, ["a"]⟩] 0 0 40 1).fd "a" = some 18) ∧
    ∀ ev ∈ eventsOfTask [⟨"a", "", 1, []⟩, ⟨"b", "", 1, ["a"]⟩] 0 0 40 1,
      24 * ((dateOf (18 : ℚ) : ℤ) : ℚ) + 10 ≤ ev.start :=
  ⟨⟨by rw [ev_topo2]; rfl, ev_fd1⟩,
    schedule_tasks_dep_start [⟨"a", "", 1, []⟩, ⟨"b", "", 1, ["a"]⟩] 0 0 40 1
      ⟨"b", "", 1, ["a"]⟩ (by rw [ev_topo2]; rfl) "a" (by simp) 18 ev_fd1⟩

/-- C6: when the day-bucket allocation for a task comes back empty,
`schedule_tasks` does not fail: the loop forces a single allocation of the
task's full hours on the due date, producing exactly one calendar event and
exactly one schedule row for that task. -/
theorem schedule_tasks_fallback (tasks : List Task) (s due hpw : ℚ) (i : ℕ) (t : Task)
    (ht : (topological_sort tasks)[i]? = some t)
    (hemp : distribute_hours t.hours
        (max (schedAfter tasks s due hpw i).cur
          (depEnd s (schedAfter tasks s due hpw i).fd t.depends_on)) due hpw = []) :
    eventsOfTask tasks s due hpw i = [mkEvent t (dateOf due, t.hours)] ∧
    (schedAfter tasks s due hpw (i + 1)).rows =
      (schedAfter tasks s due hpw i).rows ++
        [{ name := t.name, hours := t.hours, firstDay := dateOf due
         , lastDay := dateOf due, notes := t.why }] := by
  have hblocks : taskBlocks s due hpw (schedAfter tasks s due hpw i) t =
      [(dateOf due, t.hours)] := by
    simp only [taskBlocks, hemp, if_pos]
  constructor
  · unfold eventsOfTask
    rw [schedAfter_succ, ht, scheduleStep_events, List.drop_left, hblocks]
    rfl
  · rw [schedAfter_succ, ht, scheduleStep_rows, hblocks]
    rfl

lemma ev_topo1 : topological_sort [⟨"a", "", 1, []⟩] = [⟨"a", "", 1, []⟩] := by decide

lemma ev_dist_empty : distribute_hours 1
    (max (schedAfter [⟨"a", "", 1, []⟩] 24 0 8 0).cur
      (depEnd 24 (schedAfter [⟨"a", "", 1, []⟩] 24 0 8 0).fd
        (Task.mk "a" "" 1 []).depends_on)) 0 8 = [] := by
  rw [show (schedAfter [⟨"a", "", 1, []⟩] 24 0 8 0).cur = 24 from rfl]
  rw [show depEnd 24 (schedAfter [⟨"a", "", 1, []⟩] 24 0 8 0).fd
      (Task.mk "a" "" 1 []).depends_on = 24 from rfl]
  rw [max_self]
  simp only [distribute_hours, dateOf_zero, ev_dateOf24]
  rfl

/-- Witness for C6 at a concrete input (start one day after the due date, so
the allocator window is empty). -/
theorem schedule_tasks_fallback_w :
    ((topological_sort [⟨"a", "", 1, []⟩])[0]? = some ⟨"a", "", 1, []⟩ ∧
      distribute_hours 1
        (max (schedAfter [⟨"a", "", 1, []⟩] 24 0 8 0).cur
          (depEnd 24 (schedAfter [⟨"a", "", 1, []⟩] 24 0 8 0).fd
            (Task.mk "a" "" 1 []).depends_on)) 0 8 = []) ∧
    (eventsOfTask [⟨"a", "", 1, []⟩] 24 0 8 0 =
        [mkEvent ⟨"a", "", 1, []⟩ (dateOf 0, 1)] ∧
      (schedAfter [⟨"a", "", 1, []⟩] 24 0 8 (0 + 1)).rows =
        (schedAfter [⟨"a", "", 1, []⟩] 24 0 8 0).rows ++
          [{ name := "a", hours := 1, firstDay := dateOf 0
           , lastDay := dateOf 0, notes := "" }]) :=
  ⟨⟨by rw [ev_topo1]; rfl, ev_dist_empty⟩,
    schedule_tasks_fallback [⟨"a", "", 1, []⟩] 24 0 8 0 ⟨"a", "", 1, []⟩
      (by rw [ev_topo1]; rfl) ev_dist_empty⟩

/-- C7 (amended): when every task has strictly positive hours, every calendar
event built by `schedule_tasks` satisfies `end > start`.  (Unconditionally the
claim fails: a task with zero or negative hours gets an empty allocation, and
the due-date fallback then produces an event with `end = start + hours ≤
start` — see the counterexample.) -/
theorem schedule_tasks_event_pos (tasks : List Task) (s due hpw : ℚ)
    (hpos : ∀ t ∈ tasks, 0 < t.hours) :
    ∀ ev ∈ (schedule_tasks tasks s due hpw).1, ev.start < ev.stop := by
  intro ev hev
  simp only [schedule_tasks] at hev
  exact sched_foldl_events s due hpw _ _
    (fun t ht => hpos t (topological_sort_subset tasks t ht))
    (by intro e he; simp [schedStart] at he) ev hev

lemma ev_topo0 : topological_sort [⟨"a", "", 0, []⟩] = [⟨"a", "", 0, []⟩] := by decide

lemma ev_blocks_zero : taskBlocks 0 0 8 (schedStart 0) ⟨"a", "", 0, []⟩ =
    [((0 : ℤ), (0 : ℚ))] := by
  have hd : distribute_hours 0 0 0 8 = [] := distGo_not_rem _ _ _ _ _ (by norm_num [tol])
  simp only [taskBlocks, depEnd_nil]
  rw [show (schedStart 0).cur = 0 from rfl, max_self, hd, if_pos rfl, dateOf_zero]

lemma ev_sched_zero : (schedule_tasks [⟨"a", "", 0, []⟩] 0 0 8).1 =
    [mkEvent ⟨"a", "", 0, []⟩ ((0 : ℤ), (0 : ℚ))] := by
  simp only [schedule_tasks, ev_topo0, List.foldl_cons, List.foldl_nil]
  rw [scheduleStep_events, ev_blocks_zero]
  rfl

/-- Counterexample for C7 as stated: a single task with `hours = 0` (a value
`parse_tasks_json` accepts) yields an event whose end equals its start. -/
theorem schedule_tasks_event_pos_cx :
    ∃ ev ∈ (schedule_tasks [⟨"a", "", 0, []⟩] 0 0 8).1, ¬ ev.start < ev.stop := by
  refine ⟨mkEvent ⟨"a", "", 0, []⟩ ((0 : ℤ), (0 : ℚ)), ?_, ?_⟩
  · rw [ev_sched_zero]
    exact List.mem_singleton_self _
  · simp [mkEvent]

/-- Witness for C7 (amended) at a concrete input. -/
theorem schedule_tasks_event_pos_w :
    (∀ t ∈ [Task.mk "a" "" 1 []], 0 < t.hours) ∧
    ∀ ev ∈ (schedule_tasks [⟨"a", "", 1, []⟩] 0 0 40).1, ev.start < ev.stop :=
  ⟨by intro t ht; rw [List.mem_singleton] at ht; rw [ht]; norm_num,
    schedule_tasks_event_pos [⟨"a", "", 1, []⟩] 0 0 40
      (by intro t ht; rw [List.mem_singleton] at ht; rw [ht]; norm_num)⟩

/-- C8 (amended): a record whose name is empty after normalization is still
scheduled like any other task — `schedule_tasks` raises no error (it is a
total function of the normalized records) and emits exactly one row per input
record, in dependency order; the record is not excluded.  (As stated the
claim fails: the empty-name record does produce schedule output — see the
counterexample.) -/
theorem schedule_tasks_rows_total (tasks : List Task) (s due hpw : ℚ) :
    ((schedule_tasks tasks s due hpw).2).map Row.name =
      (topological_sort tasks).map Task.name ∧
    ((schedule_tasks tasks s due hpw).2).length = tasks.length := by
  have h1 := sched_foldl_rows s due hpw (topological_sort tasks) (schedStart s)
  have h2 : ((schedule_tasks tasks s due hpw).2).map Row.name =
      (topological_sort tasks).map Task.name := by
    simpa [schedule_tasks, schedStart] using h1
  refine ⟨h2, ?_⟩
  have h3 : (((schedule_tasks tasks s due hpw).2).map Row.name).length =
      ((topological_sort tasks).map Task.name).length := by rw [h2]
  simpa [length_topological_sort] using h3

/-- Counterexample for C8 as stated: with one empty-name record and one valid
record, the empty-name record is scheduled and produces its own output row
(first, in input order), rather than being excluded. -/
theorem schedule_tasks_empty_name_cx :
    ((schedule_tasks [⟨"", "", 1, []⟩, ⟨"a", "", 1, []⟩] 0 0 8).2).map Row.name =
      ["", "a"] := by
  have h2 : topological_sort [⟨"", "", 1, []⟩, ⟨"a", "", 1, []⟩] =
      [⟨"", "", 1, []⟩, ⟨"a", "", 1, []⟩] := by decide
  simp only [schedule_tasks]
  rw [sched_foldl_rows, h2]
  simp [schedStart]

end Planner

namespace Planner

lemma str_append_ne (p q : String) (hnp : ¬ p.data <+: q.data) (s : String) :
    p ++ s ≠ q := by
  intro h
  exact hnp ⟨s.data, by rw [← String.data_append]; exact congrArg String.data h⟩

lemma eventBlock_count_begin (now : ℚ) (uid : String) (ev : Event) :
    (eventBlock now uid ev).count "BEGIN:VEVENT" = 1 := by
  have h1 : ("UID:" ++ uid) ≠ "BEGIN:VEVENT" := str_append_ne _ _ (by decide) _
  have h2 : ("DTSTAMP:" ++ dtstamp now ++ "Z") ≠ "BEGIN:VEVENT" := by
    rw [String.append_assoc]
    exact str_append_ne _ _ (by decide) _
  have h3 : ("DTSTART:" ++ dtstamp ev.start) ≠ "BEGIN:VEVENT" := str_append_ne _ _ (by decide) _
  have h4 : ("DTEND:" ++ dtstamp ev.stop) ≠ "BEGIN:VEVENT" := str_append_ne _ _ (by decide) _
  have h5 : ("SUMMARY:" ++ ev.summary) ≠ "BEGIN:VEVENT" := str_append_ne _ _ (by decide) _
  have h6 : ("DESCRIPTION:" ++ ev.description.replace "\n" " ") ≠ "BEGIN:VEVENT" :=
    str_append_ne _ _ (by decide) _
  simp [eventBlock, List.count_cons, h1, h2, h3, h4, h5, h6]

lemma eventBlock_count_end (now : ℚ) (uid : String) (ev : Event) :
    (eventBlock now uid ev).count "END:VEVENT" = 1 := by
  have h1 : ("UID:" ++ uid) ≠ "END:VEVENT" := str_append_ne _ _ (by decide) _
  have h2 : ("DTSTAMP:" ++ dtstamp now ++ "Z") ≠ "END:VEVENT" := by
    rw [String.append_assoc]
    exact str_append_ne _ _ (by decide) _
  have h3 : ("DTSTART:" ++ dtstamp ev.start) ≠ "END:VEVENT" := str_append_ne _ _ (by decide) _
  have h4 : ("DTEND:" ++ dtstamp ev.stop) ≠ "END:VEVENT" := str_append_ne _ _ (by decide) _
  have h5 : ("SUMMARY:" ++ ev.summary) ≠ "END:VEVENT" := str_append_ne _ _ (by decide) _
  have h6 : ("DESCRIPTION:" ++ ev.description.replace "\n" " ") ≠ "END:VEVENT" :=
    str_append_ne _ _ (by decide) _
  simp [eventBlock, List.count_cons, h1, h2, h3, h4, h5, h6]

lemma icsGo_eq (now : ℚ) (uids : ℕ → String) :
    ∀ (evs : List Event) (i : ℕ),
      icsGo now uids evs i =
        ((evs.enumFrom i).map (fun p => eventBlock now ((p.2.uid).getD (uids p.1)) p.2)).flatten := by
  intro evs
  induction evs with
  | nil => intro i; rfl
  | cons ev evs ih =>
    intro i
    rw [icsGo, List.enumFrom, List.map_cons, List.flatten_cons, ih (i + 1)]

lemma icsGo_count (now : ℚ) (uids : ℕ → String) (a : String)
    (hone : ∀ uid ev, (eventBlock now uid ev).count a = 1) :
    ∀ (evs : List Event) (i : ℕ), (icsGo now uids evs i).count a = evs.length := by
  intro evs
  induction evs with
  | nil => intro i; rfl
  | cons ev evs ih =>
    intro i
    rw [icsGo, List.count_append, hone, ih (i + 1), List.length_cons, add_comm]

lemma icsHeader_count_begin (cal : String) : (icsHeader cal).count "BEGIN:VEVENT" = 0 := by
  have h1 : ("X-WR-CALNAME:" ++ cal) ≠ "BEGIN:VEVENT" := str_append_ne _ _ (by decide) _
  simp [icsHeader, List.count_cons, h1]

lemma icsHeader_count_end (cal : String) : (icsHeader cal).count "END:VEVENT" = 0 := by
  have h1 : ("X-WR-CALNAME:" ++ cal) ≠ "END:VEVENT" := str_append_ne _ _ (by decide) _
  simp [icsHeader, List.count_cons, h1]

/-- C9: the calendar document is the fixed header, followed by exactly one
eight-line event block per input event in input order (no resorting), followed
by the fixed footer; every block embeds the single generation instant `now`
(the one `utcnow()` call) in its `DTSTAMP` line, and the block counts match
the input length exactly. -/
theorem write_ics_structure (events : List Event) (cal : String) (now : ℚ)
    (uids : ℕ → String) :
    write_ics events cal now uids =
      icsHeader cal ++
        ((events.enum).map (fun p => eventBlock now ((p.2.uid).getD (uids p.1)) p.2)).flatten ++
        ["END:VCALENDAR"] ∧
    (write_ics events cal now uids).count "BEGIN:VEVENT" = events.length ∧
    (write_ics events cal now uids).count "END:VEVENT" = events.length := by
  refine ⟨?_, ?_, ?_⟩
  · unfold write_ics
    rw [icsGo_eq]
    rfl
  · unfold write_ics
    rw [List.count_append, List.count_append, icsHeader_count_begin,
      icsGo_count now uids _ (fun uid ev => eventBlock_count_begin now uid ev)]
    simp
  · unfold write_ics
    rw [List.count_append, List.count_append, icsHeader_count_end,
      icsGo_count now uids _ (fun uid ev => eventBlock_count_end now uid ev)]
    simp

end Planner

namespace Planner

lemma mem_insKey (ks : List String) (n m : String) :
    m ∈ insKey ks n ↔ m ∈ ks ∨ m = n := by
  unfold insKey
  split_ifs with h
  · constructor
    · exact Or.inl
    · rintro (h1 | h1)
      · exact h1
      · rw [h1]; exact h
  · simp

lemma insKey_nodup (ks : List String) (n : String) (h : ks.Nodup) :
    (insKey ks n).Nodup := by
  unfold insKey
  split_ifs with hmem
  · exact h
  · simpa [List.nodup_append] using ⟨h, hmem⟩

lemma keys_aux_nodup : ∀ (l : List Task) (ks : List String), ks.Nodup →
    (l.foldl (fun ks t => insKey ks t.name) ks).Nodup := by
  intro l
  induction l with
  | nil => intro ks h; exact h
  | cons t l ih => intro ks h; exact ih _ (insKey_nodup _ _ h)

lemma keys_aux_mem : ∀ (l : List Task) (ks : List String) (n : String),
    n ∈ l.foldl (fun ks t => insKey ks t.name) ks ↔ n ∈ ks ∨ n ∈ l.map Task.name := by
  intro l
  induction l with
  | nil => intro ks n; simp
  | cons t l ih =>
    intro ks n
    rw [List.foldl_cons, ih, mem_insKey]
    simp [or_assoc]

lemma keys_aux_len : ∀ (l : List Task) (ks : List String),
    (l.foldl (fun ks t => insKey ks t.name) ks).length ≤ ks.length + l.length := by
  intro l
  induction l with
  | nil => intro ks; simp
  | cons t l ih =>
    intro ks
    rw [List.foldl_cons]
    refine le_trans (ih _) ?_
    have h1 : (insKey ks t.name).length ≤ ks.length + 1 := by
      unfold insKey
      split_ifs with h
      · omega
      · rw [List.length_append]
        simp
    simp only [List.length_cons]
    omega

lemma keys_nodup (tasks : List Task) : (keys tasks).Nodup :=
  keys_aux_nodup tasks [] List.nodup_nil

lemma mem_keys (tasks : List Task) (n : String) :
    n ∈ keys tasks ↔ n ∈ tasks.map Task.name := by
  unfold keys
  rw [keys_aux_mem]
  simp

lemma keys_length_le (tasks : List Task) : (keys tasks).length ≤ tasks.length := by
  have := keys_aux_len tasks []
  simpa using this

lemma mem_keys_of_mem {tasks : List Task} {t : Task} (h : t ∈ tasks) :
    t.name ∈ keys tasks :=
  (mem_keys tasks t.name).mpr (List.mem_map_of_mem Task.name h)

lemma keys_aux_eq : ∀ (l : List Task) (ks : List String),
    (ks ++ l.map Task.name).Nodup → l.foldl (fun ks t => insKey ks t.name) ks =
      ks ++ l.map Task.name := by
  intro l
  induction l with
  | nil => intro ks _; simp
  | cons t l ih =>
    intro ks h
    rw [List.foldl_cons]
    have hnot : t.name ∉ ks := by
      intro hmem
      rw [List.map_cons] at h
      have hd := List.disjoint_of_nodup_append h
      exact hd hmem (List.mem_cons_self _ _)
    rw [show insKey ks t.name = ks ++ [t.name] from if_neg hnot, ih]
    · simp
    · simpa using h

lemma keys_eq_names {tasks : List Task} (hnames : (tasks.map Task.name).Nodup) :
    keys tasks = tasks.map Task.name := by
  unfold keys
  rw [keys_aux_eq tasks [] (by simpa using hnames)]
  simp

lemma initIndeg_nonneg (tasks : List Task) (n : String) : 0 ≤ initIndeg tasks n := by
  unfold initIndeg
  apply List.sum_nonneg
  intro x hx
  obtain ⟨t, _, ht⟩ := List.mem_map.mp hx
  rw [← ht]
  positivity

lemma name_inj {tasks : List Task} (hnames : (tasks.map Task.name).Nodup)
    {t u : Task} (ht : t ∈ tasks) (hu : u ∈ tasks) (he : t.name = u.name) : t = u :=
  List.inj_on_of_nodup_map hnames ht hu he

lemma filter_name_unique {tasks : List Task} (hnames : (tasks.map Task.name).Nodup)
    {t : Task} (ht : t ∈ tasks) :
    tasks.filter (fun u => decide (u.name = t.name)) = [t] := by
  induction tasks with
  | nil => exact absurd ht (List.not_mem_nil t)
  | cons a l ih =>
    rw [List.map_cons, List.nodup_cons] at hnames
    rcases List.mem_cons.mp ht with h1 | h2
    · subst h1
      rw [List.filter_cons_of_pos (by simp)]
      congr 1
      rw [List.filter_eq_nil]
      intro u hu
      simp only [decide_eq_true_eq]
      intro he
      exact hnames.1 (he ▸ List.mem_map_of_mem Task.name hu)
    · have hne : ¬ (a.name = t.name) := by
        intro he
        exact hnames.1 (he ▸ List.mem_map_of_mem Task.name h2)
      rw [List.filter_cons_of_neg (by simpa using hne)]
      exact ih hnames.2 h2

lemma initIndeg_eq {tasks : List Task} (hnames : (tasks.map Task.name).Nodup)
    {t : Task} (ht : t ∈ tasks) :
    initIndeg tasks t.name =
      ((t.depends_on.filter (fun d => decide (d ∈ keys tasks))).length : ℤ) := by
  unfold initIndeg
  rw [filter_name_unique hnames ht]
  simp [List.countP_eq_length_filter]

lemma name_to_task_isSome {tasks : List Task} {n : String} (hn : n ∈ keys tasks) :
    ∃ t, name_to_task tasks n = some t := by
  rw [mem_keys] at hn
  obtain ⟨t, ht, hname⟩ := List.mem_map.mp hn
  unfold name_to_task
  have : (tasks.reverse.find? (fun u => decide (u.name = n))).isSome := by
    rw [List.find?_isSome]
    exact ⟨t, List.mem_reverse.mpr ht, by simp [hname]⟩
  exact Option.isSome_iff_exists.mp this

lemma name_to_task_self {tasks : List Task} (hnames : (tasks.map Task.name).Nodup)
    {t : Task} (ht : t ∈ tasks) : name_to_task tasks t.name = some t := by
  obtain ⟨u, hu⟩ := name_to_task_isSome (mem_keys_of_mem ht)
  obtain ⟨humem, huname⟩ := name_to_task_mem hu
  rw [hu, name_inj hnames humem ht huname]

lemma depsOfName_eq {tasks : List Task} (hnames : (tasks.map Task.name).Nodup)
    {t : Task} (ht : t ∈ tasks) : depsOfName tasks t.name = t.depends_on := by
  unfold depsOfName
  rw [name_to_task_self hnames ht]

lemma upd_same (f : String → ℤ) (n : String) (v : ℤ) : upd f n v n = v := by
  simp [upd]

lemma upd_ne (f : String → ℤ) (n : String) (v : ℤ) (m : String) (h : m ≠ n) :
    upd f n v m = f m := by
  simp [upd, h]

lemma kahnStep_fst (n : String) : ∀ (ts : List Task) (f : String → ℤ) (m : String),
    (kahnStep n ts f).1 m =
      f m - (ts.countP (fun t => decide (n ∈ t.depends_on) && decide (t.name = m)) : ℤ) := by
  intro ts
  induction ts with
  | nil => intro f m; simp [kahnStep]
  | cons t ts ih =>
    intro f m
    simp only [kahnStep]
    by_cases hdep : n ∈ t.depends_on
    · rw [if_pos hdep]
      have hsame : (if upd f t.name (f t.name - 1) t.name = 0 then
          ((kahnStep n ts (upd f t.name (f t.name - 1))).1,
            t.name :: (kahnStep n ts (upd f t.name (f t.name - 1))).2)
        else kahnStep n ts (upd f t.name (f t.name - 1))).1 =
          (kahnStep n ts (upd f t.name (f t.name - 1))).1 := by
        split_ifs <;> rfl
      rw [hsame, ih]
      by_cases hm : t.name = m
      · rw [List.countP_cons_of_pos _ _ (by simp [hdep, hm])]
        subst hm
        rw [upd_same]
        push_cast
        omega
      · rw [List.countP_cons_of_neg _ _ (by simp [hm])]
        rw [upd_ne f _ _ _ (fun hc => hm hc.symm)]
    · rw [if_neg hdep, ih, List.countP_cons_of_neg _ _ (by simp [hdep])]

lemma kahnStep_snd_names (n : String) : ∀ (ts : List Task) (f : String → ℤ) (x : String),
    x ∈ (kahnStep n ts f).2 → ∃ t ∈ ts, t.name = x := by
  intro ts
  induction ts with
  | nil => intro f x hx; simp [kahnStep] at hx
  | cons t ts ih =>
    intro f x hx
    simp only [kahnStep] at hx
    split_ifs at hx with hdep hz
    · rcases List.mem_cons.mp hx with h1 | h2
      · exact ⟨t, List.mem_cons_self _ _, h1.symm⟩
      · obtain ⟨u, hu, hun⟩ := ih _ x h2
        exact ⟨u, List.mem_cons_of_mem _ hu, hun⟩
    · obtain ⟨u, hu, hun⟩ := ih _ x hx
      exact ⟨u, List.mem_cons_of_mem _ hu, hun⟩
    · obtain ⟨u, hu, hun⟩ := ih _ x hx
      exact ⟨u, List.mem_cons_of_mem _ hu, hun⟩

end Planner

namespace Planner

lemma invE_congr {tasks : List Task} {E1 E2 : List String} {f : String → ℤ}
    (h : E1 = E2) (hi : InvE tasks E1 f) : InvE tasks E2 f := h ▸ hi

lemma kahnStep_invE (tasks : List Task) (n : String) :
    ∀ (ts : List Task) (f : String → ℤ) (E : List String),
      (∀ t ∈ ts, t ∈ tasks) → InvE tasks E f →
      InvE tasks (E ++ (kahnStep n ts f).2) (kahnStep n ts f).1 := by
  intro ts
  induction ts with
  | nil =>
    intro f E _ hE
    simpa [kahnStep] using hE
  | cons t ts ih =>
    intro f E hsub hE
    have htmem : t ∈ tasks := hsub t (List.mem_cons_self _ _)
    have htk : t.name ∈ keys tasks := mem_keys_of_mem htmem
    have hsub2 : ∀ u ∈ ts, u ∈ tasks := fun u hu => hsub u (List.mem_cons_of_mem _ hu)
    simp only [kahnStep]
    by_cases hdep : n ∈ t.depends_on
    · rw [if_pos hdep]
      by_cases hz : upd f t.name (f t.name - 1) t.name = 0
      · rw [if_pos hz]
        have hf1 : f t.name = 1 := by
          rw [upd_same] at hz
          omega
        have hnotE : t.name ∉ E := by
          intro hmem
          have := (hE.2.2 t.name htk).mp hmem
          omega
        have hE1 : InvE tasks (E ++ [t.name]) (upd f t.name (f t.name - 1)) := by
          refine ⟨?_, ?_, ?_⟩
          · exact hE.1.append (List.nodup_singleton _) (by simp [List.disjoint_left, hnotE])
          · intro m hm
            rcases List.mem_append.mp hm with h1 | h1
            · exact hE.2.1 m h1
            · rw [List.mem_singleton] at h1
              rw [h1]
              exact htk
          · intro m hmk
            by_cases hmt : m = t.name
            · subst hmt
              rw [upd_same]
              simp [hf1]
            · rw [upd_ne _ _ _ _ hmt]
              rw [List.mem_append, List.mem_singleton]
              simp only [hmt, or_false]
              exact hE.2.2 m hmk
        have := ih (upd f t.name (f t.name - 1)) (E ++ [t.name]) hsub2 hE1
        refine invE_congr ?_ this
        simp
      · rw [if_neg hz]
        have hE1 : InvE tasks E (upd f t.name (f t.name - 1)) := by
          refine ⟨hE.1, hE.2.1, ?_⟩
          intro m hmk
          by_cases hmt : m = t.name
          · subst hmt
            rw [upd_same]
            rw [upd_same] at hz
            constructor
            · intro hmem
              have := (hE.2.2 t.name hmk).mp hmem
              omega
            · intro hle
              refine (hE.2.2 t.name hmk).mpr ?_
              omega
          · rw [upd_ne _ _ _ _ hmt]
            exact hE.2.2 m hmk
        exact ih _ E hsub2 hE1
    · rw [if_neg hdep]
      exact ih f E hsub2 hE

lemma filter_not_mem_append (R : List String) (P : List String) (n : String) :
    R.filter (fun d => decide (d ∉ P ++ [n])) =
      (R.filter (fun d => decide (d ∉ P))).filter (fun d => decide (d ≠ n)) := by
  rw [List.filter_filter]
  apply List.filter_congr
  intro d _
  by_cases h1 : d ∈ P <;> by_cases h2 : d = n <;> simp [h1, h2]

lemma filter_ne_length (n : String) :
    ∀ (S : List String), S.Nodup →
      ((S.filter (fun d => decide (d ≠ n))).length : ℤ) =
        (S.length : ℤ) - (if n ∈ S then 1 else 0) := by
  intro S
  induction S with
  | nil => intro _; simp
  | cons a S ih =>
    intro hnd
    rw [List.nodup_cons] at hnd
    by_cases ha : a = n
    · subst ha
      rw [List.filter_cons_of_neg (by simp)]
      rw [ih hnd.2]
      simp [hnd.1]
    · rw [List.filter_cons_of_pos (by simp [ha])]
      simp only [List.length_cons]
      push_cast
      rw [ih hnd.2]
      have hmem : (n ∈ a :: S) ↔ (n ∈ S) := by
        rw [List.mem_cons]
        constructor
        · rintro (h | h)
          · exact absurd h.symm ha
          · exact h
        · exact Or.inr
      rw [if_congr hmem rfl rfl]
      split_ifs <;> omega

end Planner

namespace Planner

lemma resCount_nonneg (tasks : List Task) (m : String) (P : List String) :
    0 ≤ resCount tasks m P := by
  unfold resCount
  positivity

lemma kahnStep_pop_invD (tasks : List Task) (hnames : (tasks.map Task.name).Nodup)
    (hdeps : ∀ t ∈ tasks, t.depends_on.Nodup) (n : String) (P q : List String)
    (f : String → ℤ) (hinv : InvD tasks P (n :: q) f) :
    InvD tasks (P ++ [n]) (q ++ (kahnStep n tasks f).2) (kahnStep n tasks f).1 := by
  obtain ⟨hE, hcnt, hord⟩ := hinv
  have hnE : n ∈ P ++ n :: q := by simp
  have hnk : n ∈ keys tasks := hE.2.1 n hnE
  have hnP : n ∉ P := by
    have hnd := hE.1
    rw [List.nodup_append] at hnd
    exact fun hP => hnd.2.2 hP (List.mem_cons_self n q)
  have hE2 := kahnStep_invE tasks n tasks f (P ++ n :: q) (fun t ht => ht) hE
  refine ⟨invE_congr (by simp) hE2, ?_, ?_⟩
  · intro m hmk hmP2
    have hmP : m ∉ P := fun h => hmP2 (List.mem_append.mpr (Or.inl h))
    rw [kahnStep_fst, hcnt m hmk hmP]
    obtain ⟨tm, htm⟩ := name_to_task_isSome hmk
    obtain ⟨htmmem, htmname⟩ := name_to_task_mem htm
    have hfilter : tasks.filter (fun u => decide (u.name = m)) = [tm] := by
      rw [← htmname]
      exact filter_name_unique hnames htmmem
    have hcp : ((tasks.countP
        (fun t => decide (n ∈ t.depends_on) && decide (t.name = m))) : ℤ) =
        if n ∈ tm.depends_on then 1 else 0 := by
      rw [← List.countP_filter, hfilter]
      by_cases hn2 : n ∈ tm.depends_on <;> simp [List.countP_cons, hn2]
    rw [hcp]
    have hdofn : depsOfName tasks m = tm.depends_on := by
      unfold depsOfName
      rw [htm]
    unfold resCount
    rw [hdofn, filter_not_mem_append,
      filter_ne_length n _ (((hdeps tm htmmem).filter _).filter _)]
    have hnS : n ∈ (tm.depends_on.filter (fun d => decide (d ∈ keys tasks))).filter
        (fun d => decide (d ∉ P)) ↔ n ∈ tm.depends_on := by
      rw [List.mem_filter, List.mem_filter]
      simp [hnk, hnP]
    rw [if_congr hnS rfl rfl]
  · intro k hk d hd hdk
    have hk2 : k < P.length + 1 := by
      rw [List.length_append, List.length_singleton] at hk
      exact hk
    by_cases hkP : k < P.length
    · have hget : (P ++ [n]).get ⟨k, hk⟩ = P.get ⟨k, hkP⟩ := List.get_append k hkP
      rw [hget] at hd
      have hres := hord k hkP d hd hdk
      rw [List.take_append_of_le_length (le_of_lt hkP)]
      exact hres
    · have hkeq : k = P.length := by omega
      subst hkeq
      have hget : (P ++ [n]).get ⟨P.length, hk⟩ = n := by
        have h9 : (P ++ [n]).get? P.length = some n := by
          rw [List.get?_append_right (le_refl _)]
          simp
        rw [List.get?_eq_get hk] at h9
        exact Option.some.injEq _ _ ▸ h9.symm ▸ rfl
      rw [hget] at hd
      rw [List.take_left]
      have hfn_le : f n ≤ 0 := (hE.2.2 n hnk).mp hnE
      have hfn_eq : f n = resCount tasks n P := hcnt n hnk hnP
      have hres0 : resCount tasks n P = 0 := by
        have hge := resCount_nonneg tasks n P
        omega
      unfold resCount at hres0
      have hnil : ((depsOfName tasks n).filter (fun d2 => decide (d2 ∈ keys tasks))).filter
          (fun d2 => decide (d2 ∉ P)) = [] := by
        rwa [Int.natCast_eq_zero, List.length_eq_zero] at hres0
      by_contra hdP
      have hdmem : d ∈ ((depsOfName tasks n).filter
          (fun d2 => decide (d2 ∈ keys tasks))).filter (fun d2 => decide (d2 ∉ P)) := by
        rw [List.mem_filter, List.mem_filter]
        exact ⟨⟨hd, decide_eq_true hdk⟩, decide_eq_true hdP⟩
      rw [hnil] at hdmem
      exact List.not_mem_nil d hdmem

end Planner

namespace Planner

lemma invD_init (tasks : List Task) (hnames : (tasks.map Task.name).Nodup) :
    InvD tasks []
      ((keys tasks).filter (fun n => decide (initIndeg tasks n = 0)))
      (initIndeg tasks) := by
  refine ⟨⟨?_, ?_, ?_⟩, ?_, ?_⟩
  · exact (keys_nodup tasks).filter _
  · intro m hm
    rw [List.nil_append] at hm
    exact List.mem_of_mem_filter hm
  · intro m hmk
    rw [List.nil_append, List.mem_filter]
    have hnn := initIndeg_nonneg tasks m
    constructor
    · intro h
      have := of_decide_eq_true h.2
      omega
    · intro hle
      exact ⟨hmk, decide_eq_true (by omega)⟩
  · intro m hmk _
    obtain ⟨tm, htm⟩ := name_to_task_isSome hmk
    obtain ⟨htmmem, htmname⟩ := name_to_task_mem htm
    have hdofn : depsOfName tasks m = tm.depends_on := by
      unfold depsOfName
      rw [htm]
    unfold resCount
    rw [hdofn]
    rw [show (fun d => decide (d ∉ ([] : List String))) = fun d => true from by
      funext d; simp]
    rw [List.filter_true]
    rw [← htmname, initIndeg_eq hnames htmmem]
  · intro k hk
    simp at hk

lemma kahnLoop_drain (tasks : List Task) (hnames : (tasks.map Task.name).Nodup)
    (hdeps : ∀ t ∈ tasks, t.depends_on.Nodup) :
    ∀ (fuel : ℕ) (q P : List String) (f : String → ℤ),
      InvD tasks P q f → (keys tasks).length ≤ fuel + P.length →
      ∃ Pf ff, kahnLoop tasks fuel q f (P.filterMap (name_to_task tasks)) =
          Pf.filterMap (name_to_task tasks) ∧ InvD tasks Pf [] ff := by
  intro fuel
  induction fuel with
  | zero =>
    intro q P f hinv hfuel
    have hnd := hinv.1.1
    have hsub : ∀ m ∈ P ++ q, m ∈ keys tasks := hinv.1.2.1
    have hlen : (P ++ q).length ≤ (keys tasks).length :=
      ((List.subperm_of_subset hnd hsub).length_le)
    rw [List.length_append] at hlen
    have hq : q = [] := by
      rw [← List.length_eq_zero]
      omega
    subst hq
    exact ⟨P, f, rfl, hinv⟩
  | succ fuel ih =>
    intro q P f hinv hfuel
    cases q with
    | nil => exact ⟨P, f, rfl, hinv⟩
    | cons n q1 =>
      rw [kahnLoop]
      have hstep := kahnStep_pop_invD tasks hnames hdeps n P q1 f hinv
      have hord : (P.filterMap (name_to_task tasks)) ++ (name_to_task tasks n).toList =
          (P ++ [n]).filterMap (name_to_task tasks) := by
        rw [List.filterMap_append]
        cases ho : name_to_task tasks n <;> simp [List.filterMap_cons, ho]
      rw [hord]
      refine ih (q1 ++ (kahnStep n tasks f).2) (P ++ [n]) (kahnStep n tasks f).1 hstep ?_
      rw [List.length_append, List.length_singleton]
      omega

/-- C4: for every task list on which the in-degree elimination never empties
(the claim's notion of a dependency cycle: the ordered count stays below the
task count because some tasks never reach in-degree zero), `topological_sort`
returns exactly the original input list — same order, same length — and, being
a total function, raises no error. -/
theorem topological_sort_cycle (tasks : List Task)
    (hcyc : (kahnOrder tasks).length ≠ tasks.length) :
    topological_sort tasks = tasks := by
  unfold topological_sort
  rw [if_neg hcyc]

/-- Witness for C4 at a concrete two-task cycle. -/
theorem topological_sort_cycle_w :
    (kahnOrder [⟨"a", "", 1, ["b"]⟩, ⟨"b", "", 1, ["a"]⟩]).length ≠
        ([⟨"a", "", 1, ["b"]⟩, ⟨"b", "", 1, ["a"]⟩] : List Task).length ∧
    topological_sort [⟨"a", "", 1, ["b"]⟩, ⟨"b", "", 1, ["a"]⟩] =
      [⟨"a", "", 1, ["b"]⟩, ⟨"b", "", 1, ["a"]⟩] :=
  ⟨by decide, topological_sort_cycle _ (by decide)⟩

end Planner

namespace Planner

lemma filterMap_allsome_getElem {α β : Type} (g : α → Option β) :
    ∀ (l : List α), (∀ x ∈ l, (g x).isSome) → ∀ (k : ℕ),
      (l.filterMap g)[k]? = (l[k]?).bind g := by
  intro l
  induction l with
  | nil => intro _ k; simp
  | cons a l ih =>
    intro hall k
    obtain ⟨b, hb⟩ := Option.isSome_iff_exists.mp (hall a (List.mem_cons_self _ _))
    rw [List.filterMap_cons_some hb]
    cases k with
    | zero => simp [hb]
    | succ k =>
      simp only [List.getElem?_cons_succ]
      exact ih (fun x hx => hall x (List.mem_cons_of_mem _ hx)) k

lemma filterMap_eq_self_of {α : Type} (f : α → Option α) :
    ∀ (l : List α), (∀ x ∈ l, f x = some x) → l.filterMap f = l := by
  intro l
  induction l with
  | nil => intro _; rfl
  | cons a l ih =>
    intro hall
    rw [List.filterMap_cons_some (hall a (List.mem_cons_self _ _)),
      ih (fun x hx => hall x (List.mem_cons_of_mem _ hx))]

lemma filterMap_names_eq (tasks : List Task) (hnames : (tasks.map Task.name).Nodup) :
    (tasks.map Task.name).filterMap (name_to_task tasks) = tasks := by
  rw [List.filterMap_map]
  exact filterMap_eq_self_of _ tasks (fun t ht => name_to_task_self hnames ht)

/-- C1: for every acyclic normalized task list — normalized in the sense of
the data model (task names unique within the plan, `depends_on` a set, i.e.
duplicate-free) and acyclic in the sense that the resolvable dependency edges
admit a topological ranking — `topological_sort` returns a permutation of the
input in which, for every task `t` and every name `d` in `t.depends_on` that
matches another task's name, that other task occurs strictly before `t`. -/
theorem topological_sort_correct (tasks : List Task)
    (hnames : (tasks.map Task.name).Nodup)
    (hdeps : ∀ t ∈ tasks, t.depends_on.Nodup)
    (hacyc : ∃ r : String → ℕ, ∀ t ∈ tasks, ∀ d ∈ t.depends_on,
        d ∈ tasks.map Task.name → r d < r t.name) :
    (topological_sort tasks).Perm tasks ∧
    ∀ t ∈ tasks, ∀ d ∈ t.depends_on, d ∈ tasks.map Task.name →
      ∃ i j : ℕ, i < j ∧ (topological_sort tasks)[j]? = some t ∧
        ∃ u, (topological_sort tasks)[i]? = some u ∧ u.name = d := by
  obtain ⟨r, hr⟩ := hacyc
  obtain ⟨Pf, ff, heq, hfin⟩ := kahnLoop_drain tasks hnames hdeps (tasks.length + 1)
    ((keys tasks).filter (fun n => decide (initIndeg tasks n = 0))) [] (initIndeg tasks)
    (invD_init tasks hnames)
    (by simpa using le_trans (keys_length_le tasks) (Nat.le_succ _))
  have hkahn : kahnOrder tasks = Pf.filterMap (name_to_task tasks) := by
    unfold kahnOrder
    rw [← heq]
    rfl
  have hEf : InvE tasks Pf ff := by
    have h1 := hfin.1
    rwa [List.append_nil] at h1
  have hPfnd : Pf.Nodup := hEf.1
  have hPfsub : ∀ m ∈ Pf, m ∈ keys tasks := hEf.2.1
  have hall : ∀ m ∈ keys tasks, m ∈ Pf := by
    suffices H : ∀ (k : ℕ), ∀ (m : String), m ∈ keys tasks → r m < k → m ∈ Pf by
      intro m hm
      exact H (r m + 1) m hm (Nat.lt_succ_self _)
    intro k
    induction k using Nat.strong_induction_on with
    | _ k ihk =>
      intro m hm hrk
      by_contra hmP
      have hge1 : 1 ≤ ff m := by
        have hiff := hEf.2.2 m hm
        have hnle : ¬ ff m ≤ 0 := fun hle => hmP (hiff.mpr hle)
        omega
      have hcnt2 : ff m = resCount tasks m Pf := hfin.2.1 m hm hmP
      obtain ⟨tm, htm⟩ := name_to_task_isSome hm
      obtain ⟨htmmem, htmname⟩ := name_to_task_mem htm
      have hdofn : depsOfName tasks m = tm.depends_on := by
        unfold depsOfName
        rw [htm]
      have hnonnil : ((depsOfName tasks m).filter
          (fun d => decide (d ∈ keys tasks))).filter (fun d => decide (d ∉ Pf)) ≠ [] := by
        intro h0
        unfold resCount at hcnt2
        rw [h0] at hcnt2
        simp at hcnt2
        omega
      obtain ⟨d, hdmem⟩ := List.exists_mem_of_ne_nil _ hnonnil
      rw [List.mem_filter, List.mem_filter] at hdmem
      obtain ⟨⟨hd_dep, hd_keys⟩, hd_notPf⟩ := hdmem
      have hd_keys2 : d ∈ keys tasks := of_decide_eq_true hd_keys
      have hd_notPf2 : d ∉ Pf := of_decide_eq_true hd_notPf
      rw [hdofn] at hd_dep
      have hrd : r d < r m := by
        have h5 := hr tm htmmem d hd_dep ((mem_keys tasks d).mp hd_keys2)
        rwa [htmname] at h5
      exact hd_notPf2 (ihk (r d + 1) (by omega) d hd_keys2 (Nat.lt_succ_self _))
  have hperm : Pf.Perm (keys tasks) :=
    (List.subperm_of_subset hPfnd hPfsub).antisymm
      (List.subperm_of_subset (keys_nodup tasks) hall)
  have hkeysnames : keys tasks = tasks.map Task.name := keys_eq_names hnames
  have hsome_names : ∀ x ∈ Pf, (name_to_task tasks x).isSome := by
    intro x hx
    obtain ⟨t0, ht0⟩ := name_to_task_isSome (hPfsub x hx)
    rw [ht0]
    rfl
  have hpermtasks : (Pf.filterMap (name_to_task tasks)).Perm tasks := by
    have h1 : (Pf.filterMap (name_to_task tasks)).Perm
        ((keys tasks).filterMap (name_to_task tasks)) := hperm.filterMap _
    rwa [hkeysnames, filterMap_names_eq tasks hnames] at h1
  have hlen : (kahnOrder tasks).length = tasks.length := by
    rw [hkahn]
    exact hpermtasks.length_eq
  have htopo : topological_sort tasks = Pf.filterMap (name_to_task tasks) := by
    unfold topological_sort
    rw [if_pos hlen, hkahn]
  constructor
  · rw [htopo]
    exact hpermtasks
  · intro t ht d hd hres
    have htn_keys : t.name ∈ keys tasks := mem_keys_of_mem ht
    have htn : t.name ∈ Pf := hall t.name htn_keys
    obtain ⟨⟨j, hj⟩, hgetj⟩ := List.mem_iff_get.mp htn
    have hdeps_j : d ∈ depsOfName tasks (Pf.get ⟨j, hj⟩) := by
      rw [hgetj, depsOfName_eq hnames ht]
      exact hd
    have hd_keys : d ∈ keys tasks := (mem_keys tasks d).mpr hres
    have hdP := hfin.2.2 j hj d hdeps_j hd_keys
    obtain ⟨⟨i, hi⟩, hgeti⟩ := List.mem_iff_get.mp hdP
    have hij : i < j := lt_of_lt_of_le hi (by rw [List.length_take]; exact min_le_left _ _)
    have hi2 : i < Pf.length :=
      lt_of_lt_of_le hi (by rw [List.length_take]; exact min_le_right _ _)
    have hgeti2 : Pf[i] = d := by
      rw [← hgeti, List.get_eq_getElem]
      exact (List.getElem_take _).symm
    refine ⟨i, j, hij, ?_, ?_⟩
    · rw [htopo, filterMap_allsome_getElem _ _ hsome_names j,
        List.getElem?_eq_getElem hj]
      have hgj : Pf[j] = t.name := by rw [← hgetj, List.get_eq_getElem]
      rw [hgj]
      simpa using name_to_task_self hnames ht
    · obtain ⟨u, hu⟩ := name_to_task_isSome hd_keys
      obtain ⟨humem, huname⟩ := name_to_task_mem hu
      refine ⟨u, ?_, huname⟩
      rw [htopo, filterMap_allsome_getElem _ _ hsome_names i,
        List.getElem?_eq_getElem hi2, hgeti2]
      simpa using hu

/-- Witness for C1 at a concrete acyclic two-task input. -/
theorem topological_sort_correct_w :
    ((([⟨"a", "", 1, ["b"]⟩, ⟨"b", "", 1, []⟩] : List Task).map Task.name).Nodup ∧
      (∀ t ∈ ([⟨"a", "", 1, ["b"]⟩, ⟨"b", "", 1, []⟩] : List Task), t.depends_on.Nodup)) ∧
    ((topological_sort [⟨"a", "", 1, ["b"]⟩, ⟨"b", "", 1, []⟩]).Perm
        [⟨"a", "", 1, ["b"]⟩, ⟨"b", "", 1, []⟩] ∧
      ∀ t ∈ ([⟨"a", "", 1, ["b"]⟩, ⟨"b", "", 1, []⟩] : List Task),
        ∀ d ∈ t.depends_on,
          d ∈ ([⟨"a", "", 1, ["b"]⟩, ⟨"b", "", 1, []⟩] : List Task).map Task.name →
        ∃ i j : ℕ, i < j ∧
          (topological_sort [⟨"a", "", 1, ["b"]⟩, ⟨"b", "", 1, []⟩])[j]? = some t ∧
          ∃ u, (topological_sort [⟨"a", "", 1, ["b"]⟩, ⟨"b", "", 1, []⟩])[i]? = some u ∧
            u.name = d) :=
  ⟨⟨by decide, by decide⟩,
    topological_sort_correct [⟨"a", "", 1, ["b"]⟩, ⟨"b", "", 1, []⟩] (by decide)
      (by decide) ⟨fun s => if s = "b" then 0 else 1, by decide⟩⟩

end Planner

namespace Planner

lemma invE_init (tasks : List Task) :
    InvE tasks ((keys tasks).filter (fun n => decide (initIndeg tasks n = 0)))
      (initIndeg tasks) := by
  refine ⟨(keys_nodup tasks).filter _, ?_, ?_⟩
  · intro m hm
    exact List.mem_of_mem_filter hm
  · intro m hmk
    rw [List.mem_filter]
    have hnn := initIndeg_nonneg tasks m
    constructor
    · intro h
      have := of_decide_eq_true h.2
      omega
    · intro hle
      exact ⟨hmk, decide_eq_true (by omega)⟩

lemma kahnLoop_nil_q (tasks : List Task) (fuel : ℕ) (f : String → ℤ)
    (order : List Task) : kahnLoop tasks fuel [] f order = order := by
  cases fuel <;> rfl

/-- Any fuel of at least `(keys tasks).length` computes the same result as any
other: the Kahn loop provably terminates within that many iterations, so the
`tasks.length + 1` fuel used by `kahnOrder` simulates the unbounded Python
`while q` loop exactly. -/
lemma kahnLoop_fuel_sufficient (tasks : List Task) :
    ∀ (fuel1 fuel2 : ℕ) (q P : List String) (f : String → ℤ) (order : List Task),
      InvE tasks (P ++ q) f →
      (keys tasks).length ≤ fuel1 + P.length →
      (keys tasks).length ≤ fuel2 + P.length →
      kahnLoop tasks fuel1 q f order = kahnLoop tasks fuel2 q f order := by
  intro fuel1
  induction fuel1 with
  | zero =>
    intro fuel2 q P f order hE h1 h2
    have hq : q = [] := by
      have hlen : (P ++ q).length ≤ (keys tasks).length :=
        (List.subperm_of_subset hE.1 hE.2.1).length_le
      rw [List.length_append] at hlen
      rw [← List.length_eq_zero]
      omega
    subst hq
    rw [kahnLoop_nil_q, kahnLoop_nil_q]
  | succ fuel1 ih =>
    intro fuel2 q P f order hE h1 h2
    cases q with
    | nil => rw [kahnLoop_nil_q, kahnLoop_nil_q]
    | cons n q1 =>
      cases fuel2 with
      | zero =>
        exfalso
        have hlen : (P ++ n :: q1).length ≤ (keys tasks).length :=
          (List.subperm_of_subset hE.1 hE.2.1).length_le
        rw [List.length_append, List.length_cons] at hlen
        omega
      | succ fuel2 =>
        rw [kahnLoop, kahnLoop]
        have hE2 := kahnStep_invE tasks n tasks f (P ++ n :: q1) (fun t ht => ht) hE
        have hE3 : InvE tasks ((P ++ [n]) ++ (q1 ++ (kahnStep n tasks f).2))
            (kahnStep n tasks f).1 := invE_congr (by simp) hE2
        refine ih fuel2 (q1 ++ (kahnStep n tasks f).2) (P ++ [n]) _ _ hE3 ?_ ?_ <;>
          rw [List.length_append, List.length_singleton] <;> omega

lemma kahnOrder_fuel_independent (tasks : List Task) (fuel : ℕ)
    (hfuel : (keys tasks).length ≤ fuel) :
    kahnLoop tasks fuel ((keys tasks).filter (fun n => decide (initIndeg tasks n = 0)))
      (initIndeg tasks) [] = kahnOrder tasks := by
  unfold kahnOrder
  refine kahnLoop_fuel_sufficient tasks fuel (tasks.length + 1) _ [] _ _ ?_ ?_ ?_
  · simpa using invE_init tasks
  · simpa using hfuel
  · simpa using le_trans (keys_length_le tasks) (Nat.le_succ _)

end Planner
